import Mathlib

/-!
Verification of the chunked annotation-collection-and-merge pipeline of VAPr
(`src/VAPr/annotation_project.py`, with the duplicate job partitioner in
`src/VAPr/vapr_core.py`).

Python dictionaries are embedded as association lists of `String × PyVal`
with first-occurrence lookup; Python strings are embedded as `String`
(`List Char` where character-level reasoning is needed); fallible Python
code (KeyError, IndexError, ValueError) returns `Except`/`Option`.
-/

namespace VAPr

/-- A Python value stored in an annotation dictionary: `None` or any other
payload (embedded as a string; the pipeline only ever compares values for
equality and moves them between keys). -/
inductive PyVal where
  | pynone
  | pystr (s : String)
deriving DecidableEq, Repr

/-- A Python dict, embedded as an association list.  Python dict keys are
unique; where a proof needs that invariant it is taken as a `Nodup`
hypothesis on `dkeys`. -/
abbrev Dict := List (String × PyVal)

/-- `d[k]` as a total function: the value at the first occurrence of `k`. -/
def dlookup : Dict → String → Option PyVal
  | [], _ => none
  | (k, v) :: rest, key => if k = key then some v else dlookup rest key

/-- `d[k] = v` (Python item assignment): replace the first occurrence of
`k`, or append `(k, v)` when `k` is absent. -/
def dset : Dict → String → PyVal → Dict
  | [], key, val => [(key, val)]
  | (k, v) :: rest, key, val =>
      if k = key then (key, val) :: rest else (k, v) :: dset rest key val

/-- `d.pop(k, default)`: remove the first occurrence of `k` returning its
value, or return the default when `k` is absent. -/
def dpop : Dict → String → PyVal → PyVal × Dict
  | [], _, dflt => (dflt, [])
  | (k, v) :: rest, key, dflt =>
      if k = key then (v, rest)
      else
        let p := dpop rest key dflt
        (p.1, (k, v) :: p.2)

/-- `d1.update(d2)`: set each of `d2`'s entries into `d1`, in order. -/
def dupdate (d1 d2 : Dict) : Dict :=
  d2.foldl (fun acc kv => dset acc kv.1 kv.2) d1

/-- The key list of a dict. -/
def dkeys (d : Dict) : List String := d.map Prod.fst

instance {ε α : Type} [DecidableEq ε] [DecidableEq α] : DecidableEq (Except ε α)
  | .ok x, .ok y =>
      if h : x = y then .isTrue (by rw [h])
      else .isFalse (by intro hh; injection hh with h2; exact h h2)
  | .ok _, .error _ => .isFalse (by intro hh; exact Except.noConfusion hh)
  | .error _, .ok _ => .isFalse (by intro hh; exact Except.noConfusion hh)
  | .error e, .error f =>
      if h : e = f then .isTrue (by rw [h])
      else .isFalse (by intro hh; injection hh with h2; exact h h2)

/-- The rename step `_remove_id_key` applies to one record
(annotation_project.py:252-253): `dic["hgvs_id"] = dic.pop("_id", None)`
then `dic["hgvs_id"] = dic.pop("query", None)`. -/
def removeIdKeyOne (dic : Dict) : Dict :=
  let p1 := dpop dic "_id" PyVal.pynone
  let d1 := dset p1.2 "hgvs_id" p1.1
  let p2 := dpop d1 "query" PyVal.pynone
  dset p2.2 "hgvs_id" p2.1

/-- `_remove_id_key` (annotation_project.py:248-254): applies the rename
step to every record of the batch (in place in the source; embedded as a
map). -/
def remove_id_key (variant_data : List Dict) : List Dict :=
  variant_data.map removeIdKeyOne

/-- One job-parameters tuple of the Job Partitioner.  The source encodes
this as a fixed-position array indexed by `AnnotationJobParamsIndices`
(annotation_project.py:124-139); the positional encoding is embedded as a
named-field record with the same components. -/
structure AnnotationJobParams where
  chunkIndex : Nat
  filePath : String
  chunkSize : Nat
  dbName : String
  collectionName : String
  genomeBuildVersion : String
  verboseLevel : Nat
  sampleNamesList : Option (List String)
deriving DecidableEq, Repr

/-- `_make_jobs_params_tuples_list` (annotation_project.py:31-58, duplicated
at vapr_core.py:149-175): `num_steps = int(num_lines / chunk_size) + 1`
jobs, one per `curr_chunk_index in range(num_steps)`, all sharing the other
parameters.  `num_lines` is the line count of the source file, passed in
here as a number (the vapr_core copy likewise receives `num_file_lines`). -/
def make_jobs_params_tuples_list (file_path : String) (num_lines chunk_size : Nat)
    (db_name collection_name genome_build_version : String)
    (sample_names_list : Option (List String)) (verbose_level : Nat) :
    List AnnotationJobParams :=
  (List.range (num_lines / chunk_size + 1)).map fun curr_chunk_index =>
    { chunkIndex := curr_chunk_index
      filePath := file_path
      chunkSize := chunk_size
      dbName := db_name
      collectionName := collection_name
      genomeBuildVersion := genome_build_version
      verboseLevel := verbose_level
      sampleNamesList := sample_names_list }

/-- First source line owned by a job: `chunk_index * chunk_size`, the start
of the `islice` range in `_get_hgvs_ids_from_vcf` (annotation_project.py:184)
and of the parser's chunk. -/
def jobLineStart (job : AnnotationJobParams) : Nat :=
  job.chunkIndex * job.chunkSize

/-- One past the last source line owned by a job:
`(chunk_index + 1) * chunk_size`. -/
def jobLineEnd (job : AnnotationJobParams) : Nat :=
  (job.chunkIndex + 1) * job.chunkSize

/-- `pat` is a prefix of `s`, at the character level (helper for the
embedding of Python's substring test). -/
def startsWithChars : List Char → List Char → Bool
  | [], _ => true
  | _ :: _, [] => false
  | p :: ps, c :: cs => p = c && startsWithChars ps cs

/-- `pat in s` for Python strings: `pat` occurs contiguously in `s`. -/
def hasSubstringChars (pat : List Char) : List Char → Bool
  | [] => pat.isEmpty
  | c :: cs => startsWithChars pat (c :: cs) || hasSubstringChars pat cs

/-- Python's `pat in s` on strings. -/
def pyIn (pat s : String) : Bool := hasSubstringChars pat.data s.data

/-- One step of the character-level split: prepend `c` to the partial split
`parts` of the rest of the string. -/
def splitCons (c sep : Char) (parts : List (List Char)) : List (List Char) :=
  match parts with
  | [] => [[]]
  | p :: ps => if c = sep then [] :: p :: ps else (c :: p) :: ps

/-- Python's `s.split(sep)` for a one-character separator, at the character
level: splits at every occurrence, keeping empty components. -/
def splitChar (sep : Char) : List Char → List (List Char)
  | [] => [[]]
  | c :: rest => splitCons c sep (splitChar sep rest)

/-- `_complete_chromosome` (annotation_project.py:192-202): if `'M' in
hgvs_id`, take `one = hgvs_id.split(':')[0]` and `two =
hgvs_id.split(':')[1]`, replace `one` by `"chrMT"` when `'MT' not in one`,
and return `"".join([one, ':', two])`; otherwise return the input
unchanged.  `none` embeds the `IndexError` of `split(':')[1]` when the
input has no colon. -/
def complete_chromosome (hgvs_id : String) : Option String :=
  if pyIn "M" hgvs_id then
    match splitChar ':' hgvs_id.data with
    | one :: two :: _ =>
        let one2 := if ¬hasSubstringChars "MT".data one then "chrMT".data else one
        some (String.mk (one2 ++ ':' :: two))
    | _ => none
  else
    some hgvs_id

/-- The errors `_merge_annovar_and_myvariant_dicts` can raise: the
`ValueError` whose message carries both hgvs identifiers, and the
`KeyError` from `dic["hgvs_id"]` when the key is absent. -/
inductive MergeError where
  | identifierMismatch (myvariantId annovarId : PyVal)
  | keyError (key : String)
deriving DecidableEq, Repr

/-- `_merge_annovar_and_myvariant_dicts` (annotation_project.py:257-266).
The first component is the returned value (or the raised error); the
second component is the post-state of `annovar_dict`, which the source
mutates in place via `annovar_dict.update(myvariant_dict)`. -/
def merge_annovar_and_myvariant_dicts (myvariant_dict annovar_dict : Dict) :
    Except MergeError Dict × Dict :=
  match dlookup myvariant_dict "hgvs_id", dlookup annovar_dict "hgvs_id" with
  | some mvId, some avId =>
      if mvId ≠ avId then
        (.error (.identifierMismatch mvId avId), annovar_dict)
      else
        (.ok (dupdate annovar_dict myvariant_dict), dupdate annovar_dict myvariant_dict)
  | none, _ => (.error (.keyError "hgvs_id"), annovar_dict)
  | some _, none => (.error (.keyError "hgvs_id"), annovar_dict)

/-- Errors of the per-chunk merge loop in `_collect_chunk_annotations_and_store`:
a raised merge error, or the `IndexError` from `myvariants_variants[i]` /
`annovar_variants[i]`. -/
inductive ChunkError where
  | merge (e : MergeError)
  | indexError
deriving DecidableEq, Repr

/-- The loop body of `_collect_chunk_annotations_and_store`
(annotation_project.py:172-175): iterate `i` over `[i0, i0 + n)`,
appending `_merge_annovar_and_myvariant_dicts(myvariants_variants[i],
annovar_variants[i])`; any raise aborts the loop with no output. -/
def chunkMergeAux (mvs avs : List Dict) : Nat → Nat → Except ChunkError (List Dict)
  | _, 0 => .ok []
  | i, n + 1 =>
      match mvs[i]?, avs[i]? with
      | some mv, some av =>
          match (merge_annovar_and_myvariant_dicts mv av).1 with
          | .ok d => (chunkMergeAux mvs avs (i + 1) n).map (d :: ·)
          | .error e => .error (.merge e)
      | _, _ => .error .indexError

/-- The merge step of `_collect_chunk_annotations_and_store`
(annotation_project.py:170-177): `for i in range(0, len(hgvs_ids_list))`
merge the i-th remote and local records.  An error means the exception
propagates and nothing is stored for the chunk. -/
def merge_chunk_variant_dicts (hgvs_ids_list : List String) (mvs avs : List Dict) :
    Except ChunkError (List Dict) :=
  chunkMergeAux mvs avs 0 hgvs_ids_list.length

/-- `_get_myvariantinfo_annotations_dict` (annotation_project.py:205-245):
the `try`/`except` loop around `mv.getvariants` — on any exception it logs,
sleeps a fixed 5 seconds, and recurses to retry the whole batched call.
The remote service is embedded as an oracle `attempts` giving each
attempt's outcome; `depth` is the recursion depth (attempt index) and
`fuel` bounds it so the unbounded Python recursion is total here: `none`
means the loop is still retrying after `fuel` attempts — there is no error
result, matching the source's lack of any terminal-failure path.  As in
the source, `_remove_id_key` is applied to the returned data once per
recursion level before returning. -/
def get_myvariantinfo_annotations_dict (attempts : Nat → Except String (List Dict)) :
    Nat → Nat → Option (List Dict)
  | _, 0 => none
  | depth, fuel + 1 =>
      let variant_data :=
        match attempts depth with
        | .ok getvariants => some getvariants
        | .error _ => get_myvariantinfo_annotations_dict attempts (depth + 1) fuel
      variant_data.map remove_id_key

/-- One record of the merged VCF file as read by `vcf.Reader`: chromosome,
1-based position, reference allele, and the list of alternate alleles. -/
structure VcfRecord where
  chrom : String
  pos : Nat
  ref : String
  alt : List String
deriving DecidableEq, Repr

/-- Modelled from the spec: `myvariant.format_hgvs` is an external library
function absent from the source; §2.1/§4.1 describe it as building the
canonical per-variant key `chrom:pos:ref>alt` from chromosome token,
1-based position, reference allele, and alternate allele. -/
def format_hgvs (chrom : String) (pos : Nat) (ref alt : String) : String :=
  chrom ++ ":" ++ toString pos ++ ":" ++ ref ++ ">" ++ alt

/-- The per-record loop of `_get_hgvs_ids_from_vcf`
(annotation_project.py:184-187): one identifier per record, built from
`str(record.ALT[0])` only and normalized by `_complete_chromosome`;
`none` embeds the IndexError raised when a record's ALT list is empty. -/
def hgvsIdsLoop : List VcfRecord → Option (List String)
  | [] => some []
  | record :: rest =>
      match record.alt[0]? with
      | none => none
      | some alt0 =>
          match complete_chromosome (format_hgvs record.chrom record.pos record.ref alt0) with
          | none => none
          | some normed_hgvs_id => (hgvsIdsLoop rest).map (normed_hgvs_id :: ·)

/-- `_get_hgvs_ids_from_vcf` (annotation_project.py:180-189): iterate over
`itertools.islice(reader, chunk_index * chunk_size, (chunk_index + 1) *
chunk_size)`, i.e. over the chunk's line range of the VCF, clipped at
end-of-file. -/
def get_hgvs_ids_from_vcf (records : List VcfRecord) (chunk_index chunk_size : Nat) :
    Option (List String) :=
  hgvsIdsLoop ((records.drop (chunk_index * chunk_size)).take
    ((chunk_index + 1) * chunk_size - chunk_index * chunk_size))

theorem dlookup_dset_self (d : Dict) (k : String) (v : PyVal) :
    dlookup (dset d k v) k = some v := by
  induction d with
  | nil => simp [dset, dlookup]
  | cons hd tl ih =>
      obtain ⟨k2, v2⟩ := hd
      by_cases h : k2 = k
      · subst h
        simp [dset, dlookup]
      · simp [dset, dlookup, h, ih]

theorem dlookup_dset_ne (d : Dict) (k k2 : String) (v : PyVal) (h : k ≠ k2) :
    dlookup (dset d k v) k2 = dlookup d k2 := by
  induction d with
  | nil => simp [dset, dlookup, h]
  | cons hd tl ih =>
      obtain ⟨k3, v3⟩ := hd
      by_cases h3 : k3 = k
      · subst h3
        simp [dset, dlookup, h]
      · simp [dset, dlookup, h3, ih]

theorem dlookup_eq_none_iff (d : Dict) (k : String) :
    dlookup d k = none ↔ k ∉ dkeys d := by
  induction d with
  | nil => simp [dlookup, dkeys]
  | cons hd tl ih =>
      obtain ⟨k2, v2⟩ := hd
      by_cases h : k2 = k
      · subst h
        simp [dlookup, dkeys]
      · simp [dlookup, dkeys, h, Ne.symm h, ih]

theorem mem_dkeys_of_dlookup (d : Dict) (k : String) (v : PyVal)
    (h : dlookup d k = some v) : k ∈ dkeys d := by
  by_contra hmem
  rw [← dlookup_eq_none_iff] at hmem
  rw [h] at hmem
  exact Option.noConfusion hmem

theorem dupdate_cons (d1 : Dict) (k : String) (v : PyVal) (rest : Dict) :
    dupdate d1 ((k, v) :: rest) = dupdate (dset d1 k v) rest := rfl

theorem dlookup_dupdate_not_mem (d1 d2 : Dict) (k : String) (h : k ∉ dkeys d2) :
    dlookup (dupdate d1 d2) k = dlookup d1 k := by
  induction d2 generalizing d1 with
  | nil => rfl
  | cons hd tl ih =>
      obtain ⟨k2, v2⟩ := hd
      rw [show dkeys ((k2, v2) :: tl) = k2 :: dkeys tl from rfl, List.mem_cons, not_or] at h
      rw [dupdate_cons, ih _ h.2]
      exact dlookup_dset_ne _ _ _ _ (Ne.symm h.1)

theorem dlookup_dupdate_of_some (d1 d2 : Dict) (k : String) (v : PyVal)
    (hnd : (dkeys d2).Nodup) (h : dlookup d2 k = some v) :
    dlookup (dupdate d1 d2) k = some v := by
  induction d2 generalizing d1 with
  | nil => simp [dlookup] at h
  | cons hd tl ih =>
      obtain ⟨k2, v2⟩ := hd
      rw [show dkeys ((k2, v2) :: tl) = k2 :: dkeys tl from rfl, List.nodup_cons] at hnd
      by_cases hk : k2 = k
      · subst hk
        simp [dlookup] at h
        subst h
        rw [dupdate_cons, dlookup_dupdate_not_mem _ _ _ hnd.1]
        exact dlookup_dset_self _ _ _
      · simp only [dlookup, if_neg hk] at h
        rw [dupdate_cons]
        exact ih _ hnd.2 h

theorem dlookup_dupdate_of_none (d1 d2 : Dict) (k : String)
    (h : dlookup d2 k = none) :
    dlookup (dupdate d1 d2) k = dlookup d1 k :=
  dlookup_dupdate_not_mem d1 d2 k ((dlookup_eq_none_iff d2 k).mp h)

theorem merge_ok_of_eq (mv av : Dict) (v : PyVal)
    (hl1 : dlookup mv "hgvs_id" = some v) (hl2 : dlookup av "hgvs_id" = some v) :
    merge_annovar_and_myvariant_dicts mv av = (.ok (dupdate av mv), dupdate av mv) := by
  simp [merge_annovar_and_myvariant_dicts, hl1, hl2]

theorem merge_mismatch_eq (mv av : Dict) (a b : PyVal)
    (hl1 : dlookup mv "hgvs_id" = some a) (hl2 : dlookup av "hgvs_id" = some b)
    (hne : a ≠ b) :
    merge_annovar_and_myvariant_dicts mv av = (.error (.identifierMismatch a b), av) := by
  simp [merge_annovar_and_myvariant_dicts, hl1, hl2, hne]

theorem chunkMergeAux_ok (mvs avs : List Dict) :
    ∀ (n i : Nat),
    (∀ j, i ≤ j → j < i + n → ∃ mv av v, mvs[j]? = some mv ∧ avs[j]? = some av ∧
        dlookup mv "hgvs_id" = some v ∧ dlookup av "hgvs_id" = some v) →
    ∃ out, chunkMergeAux mvs avs i n = .ok out ∧ out.length = n ∧
      ∀ j mv av, j < n → mvs[i + j]? = some mv → avs[i + j]? = some av →
        out[j]? = some (dupdate av mv) := by
  intro n
  induction n with
  | zero =>
      intro i _
      exact ⟨[], rfl, rfl, fun j _ _ hj => absurd hj (by omega)⟩
  | succ n ih =>
      intro i hall
      obtain ⟨mv, av, v, hmv, hav, hl1, hl2⟩ := hall i (le_refl i) (by omega)
      obtain ⟨out, hout, hlen, hidx⟩ := ih (i + 1)
        (fun j hj1 hj2 => hall j (by omega) (by omega))
      refine ⟨dupdate av mv :: out, ?_, by simp [hlen], ?_⟩
      · simp [chunkMergeAux, hmv, hav, merge_ok_of_eq mv av v hl1 hl2, hout, Except.map]
      · intro j mv2 av2 hj hmv2 hav2
        match j with
        | 0 =>
            rw [show i + 0 = i from rfl, hmv] at hmv2
            rw [show i + 0 = i from rfl, hav] at hav2
            cases hmv2
            cases hav2
            simp
        | j + 1 =>
            rw [List.getElem?_cons_succ]
            exact hidx j mv2 av2 (by omega)
              (by rw [show i + 1 + j = i + (j + 1) from by omega]; exact hmv2)
              (by rw [show i + 1 + j = i + (j + 1) from by omega]; exact hav2)

theorem chunkMergeAux_mismatch (mvs avs : List Dict) (a b : PyVal) :
    ∀ (n i t : Nat), i ≤ t → t < i + n →
    (∀ j, i ≤ j → j < t → ∃ mv av v, mvs[j]? = some mv ∧ avs[j]? = some av ∧
        dlookup mv "hgvs_id" = some v ∧ dlookup av "hgvs_id" = some v) →
    (∃ mv av, mvs[t]? = some mv ∧ avs[t]? = some av ∧
        dlookup mv "hgvs_id" = some a ∧ dlookup av "hgvs_id" = some b ∧ a ≠ b) →
    chunkMergeAux mvs avs i n = .error (.merge (.identifierMismatch a b)) := by
  intro n
  induction n with
  | zero => intro i t h1 h2 _ _; omega
  | succ n ih =>
      intro i t h1 h2 hall hmis
      rcases Nat.eq_or_lt_of_le h1 with heq | hlt
      · subst heq
        obtain ⟨mv, av, hmv, hav, hl1, hl2, hne⟩ := hmis
        simp [chunkMergeAux, hmv, hav, merge_mismatch_eq mv av a b hl1 hl2 hne]
      · obtain ⟨mv, av, v, hmv, hav, hl1, hl2⟩ := hall i (le_refl i) hlt
        simp [chunkMergeAux, hmv, hav, merge_ok_of_eq mv av v hl1 hl2,
          ih (i + 1) t hlt (by omega) (fun j hj1 hj2 => hall j (by omega) hj2) hmis,
          Except.map]

theorem chunkMergeAux_index_error (mvs avs : List Dict) :
    ∀ (n i t : Nat), i ≤ t → t < i + n →
    (∀ j, i ≤ j → j < t → ∃ mv av v, mvs[j]? = some mv ∧ avs[j]? = some av ∧
        dlookup mv "hgvs_id" = some v ∧ dlookup av "hgvs_id" = some v) →
    (mvs[t]? = none ∨ avs[t]? = none) →
    chunkMergeAux mvs avs i n = .error .indexError := by
  intro n
  induction n with
  | zero => intro i t h1 h2 _ _; omega
  | succ n ih =>
      intro i t h1 h2 hall hnone
      rcases Nat.eq_or_lt_of_le h1 with heq | hlt
      · subst heq
        rcases hnone with hn | hn
        · rcases h : avs[i]? with _ | av <;> simp [chunkMergeAux, hn, h]
        · rcases h : mvs[i]? with _ | mv <;> simp [chunkMergeAux, hn, h]
      · obtain ⟨mv, av, v, hmv, hav, hl1, hl2⟩ := hall i (le_refl i) hlt
        simp [chunkMergeAux, hmv, hav, merge_ok_of_eq mv av v hl1 hl2,
          ih (i + 1) t hlt (by omega) (fun j hj1 hj2 => hall j (by omega) hj2) hnone,
          Except.map]

/-- Claim C1: for positionally-aligned lists of remote (`mvs`) and local
(`avs`) records of equal length `k` whose `hgvs_id` identifiers agree at
every index, the chunk merge step produces a list of length `k` in which
the i-th document holds every field of the remote record with the remote
value (so remote wins on any shared key), holds every field of the local
record, and keeps the local value on keys the remote record lacks. -/
theorem merge_lists_elementwise_correct
    (ids : List String) (mvs avs : List Dict) (k : Nat)
    (hids : ids.length = k) (hmvlen : mvs.length = k) (havlen : avs.length = k)
    (hnodup : ∀ d ∈ mvs, (dkeys d).Nodup)
    (hmatch : ∀ (j : Nat) (mv av : Dict), mvs[j]? = some mv → avs[j]? = some av →
        ∃ v, dlookup mv "hgvs_id" = some v ∧ dlookup av "hgvs_id" = some v) :
    ∃ out, merge_chunk_variant_dicts ids mvs avs = .ok out ∧ out.length = k ∧
      ∀ (j : Nat) (mv av o : Dict), mvs[j]? = some mv → avs[j]? = some av → out[j]? = some o →
        (∀ key v, dlookup mv key = some v → dlookup o key = some v) ∧
        (∀ key v, dlookup av key = some v → ∃ w, dlookup o key = some w) ∧
        (∀ key, dlookup mv key = none → dlookup o key = dlookup av key) := by
  obtain ⟨out, hout, hlen, hidx⟩ := chunkMergeAux_ok mvs avs ids.length 0
    (by
      intro j hj1 hj2
      have hjm : j < mvs.length := by omega
      have hja : j < avs.length := by omega
      obtain ⟨v, hv1, hv2⟩ := hmatch j _ _ (List.getElem?_eq_getElem hjm)
        (List.getElem?_eq_getElem hja)
      exact ⟨_, _, v, List.getElem?_eq_getElem hjm, List.getElem?_eq_getElem hja, hv1, hv2⟩)
  refine ⟨out, hout, hlen.trans hids, ?_⟩
  intro j mv av o hmv hav ho
  have hjk : j < k := by
    have := (List.getElem?_eq_some.mp hmv).1
    omega
  have hupd := hidx j mv av (by omega) (by simpa using hmv) (by simpa using hav)
  rw [ho] at hupd
  have ho2 : o = dupdate av mv := by
    exact (Option.some.injEq _ _).mp hupd
  subst ho2
  have hmvnd : (dkeys mv).Nodup := hnodup mv (List.getElem?_mem hmv)
  refine ⟨?_, ?_, ?_⟩
  · intro key v hv
    exact dlookup_dupdate_of_some av mv key v hmvnd hv
  · intro key v hv
    rcases hmvkey : dlookup mv key with _ | w
    · refine ⟨v, ?_⟩
      rw [dlookup_dupdate_of_none _ _ _ hmvkey]
      exact hv
    · exact ⟨w, dlookup_dupdate_of_some _ _ _ _ hmvnd hmvkey⟩
  · intro key hkey
    exact dlookup_dupdate_of_none _ _ _ hkey

/-- Witness for C1 at a concrete chunk of one aligned record pair. -/
theorem merge_lists_elementwise_correct_witness :
    ∃ out, merge_chunk_variant_dicts ["chr1:g.1A>T"]
        [[("hgvs_id", PyVal.pystr "chr1:g.1A>T"), ("cadd", PyVal.pystr "12")]]
        [[("hgvs_id", PyVal.pystr "chr1:g.1A>T"), ("func", PyVal.pystr "exonic"),
          ("cadd", PyVal.pystr "old")]] = .ok out ∧ out.length = 1 := by
  obtain ⟨out, h1, h2, _⟩ := merge_lists_elementwise_correct
    ["chr1:g.1A>T"]
    [[("hgvs_id", PyVal.pystr "chr1:g.1A>T"), ("cadd", PyVal.pystr "12")]]
    [[("hgvs_id", PyVal.pystr "chr1:g.1A>T"), ("func", PyVal.pystr "exonic"),
      ("cadd", PyVal.pystr "old")]] 1 rfl rfl rfl (by decide)
    (by
      intro j mv av hmv hav
      match j with
      | 0 =>
          rw [List.getElem?_cons_zero] at hmv hav
          cases hmv
          cases hav
          exact ⟨PyVal.pystr "chr1:g.1A>T", by decide, by decide⟩
      | j + 1 => simp at hmv)
  exact ⟨out, h1, h2⟩

/-- Claim C2: merging a remote and a local record with differing `hgvs_id`
identifiers fails immediately with an identifier-mismatch error carrying
both identifiers, and the chunk-level merge loop on aligned lists with a
mismatch at some index aborts with that error, producing no merged output
for the chunk. -/
theorem merge_identifier_mismatch_fails :
    (∀ mv av a b, dlookup mv "hgvs_id" = some a → dlookup av "hgvs_id" = some b →
      a ≠ b → (merge_annovar_and_myvariant_dicts mv av).1 =
        .error (.identifierMismatch a b)) ∧
    (∀ (ids : List String) (mvs avs : List Dict) (k t : Nat) (a b : PyVal),
      ids.length = k → mvs.length = k → avs.length = k → t < k →
      (∀ j, j < t → ∃ mv av v, mvs[j]? = some mv ∧ avs[j]? = some av ∧
          dlookup mv "hgvs_id" = some v ∧ dlookup av "hgvs_id" = some v) →
      (∃ mv av, mvs[t]? = some mv ∧ avs[t]? = some av ∧
          dlookup mv "hgvs_id" = some a ∧ dlookup av "hgvs_id" = some b ∧ a ≠ b) →
      merge_chunk_variant_dicts ids mvs avs =
        .error (.merge (.identifierMismatch a b))) := by
  constructor
  · intro mv av a b hl1 hl2 hne
    rw [merge_mismatch_eq mv av a b hl1 hl2 hne]
  · intro ids mvs avs k t a b hids hmvlen havlen ht hall hmis
    exact chunkMergeAux_mismatch mvs avs a b ids.length 0 t (by omega) (by omega)
      (fun j _ hj => hall j hj) hmis

/-- Witness for C2 at concrete mismatching records. -/
theorem merge_identifier_mismatch_fails_witness :
    (merge_annovar_and_myvariant_dicts [("hgvs_id", PyVal.pystr "idA")]
        [("hgvs_id", PyVal.pystr "idB")]).1 =
      .error (.identifierMismatch (PyVal.pystr "idA") (PyVal.pystr "idB")) ∧
    merge_chunk_variant_dicts ["idA"] [[("hgvs_id", PyVal.pystr "idA")]]
        [[("hgvs_id", PyVal.pystr "idB")]] =
      .error (.merge (.identifierMismatch (PyVal.pystr "idA") (PyVal.pystr "idB"))) :=
  ⟨merge_identifier_mismatch_fails.1 _ _ _ _ (by decide) (by decide) (by decide),
   merge_identifier_mismatch_fails.2 ["idA"] [[("hgvs_id", PyVal.pystr "idA")]]
     [[("hgvs_id", PyVal.pystr "idB")]] 1 0 (PyVal.pystr "idA") (PyVal.pystr "idB")
     rfl rfl rfl (by decide)
     (fun j hj => absurd hj (by omega))
     ⟨[("hgvs_id", PyVal.pystr "idA")], [("hgvs_id", PyVal.pystr "idB")],
       by decide, by decide, by decide, by decide, by decide⟩⟩

/-- Claim C8 counterexample: the two record lists have lengths 2 and 1, yet
the chunk's merge step succeeds (the extra remote record is silently
ignored) instead of failing fatally. -/
theorem merge_length_mismatch_counterexample :
    ([[("hgvs_id", PyVal.pystr "idA")], [("hgvs_id", PyVal.pystr "idB")]] : List Dict).length ≠
      ([[("hgvs_id", PyVal.pystr "idA")]] : List Dict).length ∧
    merge_chunk_variant_dicts ["idA"]
        [[("hgvs_id", PyVal.pystr "idA")], [("hgvs_id", PyVal.pystr "idB")]]
        [[("hgvs_id", PyVal.pystr "idA")]] =
      .ok [[("hgvs_id", PyVal.pystr "idA")]] := by decide

/-- Claim C8 amended: merging is element-wise over the index range of the
chunk's identifier list (parallel to the local list); when the remote list
is shorter than that range the merge loop fails fatally with an index
error, producing no output for the chunk.  (A remote list longer than the
range does not fail; its extra records are ignored.) -/
theorem merge_remote_shorter_fails
    (ids : List String) (mvs avs : List Dict) (k : Nat)
    (hids : ids.length = k) (havlen : avs.length = k) (hshort : mvs.length < k)
    (hall : ∀ j, j < mvs.length → ∃ mv av v, mvs[j]? = some mv ∧ avs[j]? = some av ∧
        dlookup mv "hgvs_id" = some v ∧ dlookup av "hgvs_id" = some v) :
    merge_chunk_variant_dicts ids mvs avs = .error .indexError := by
  apply chunkMergeAux_index_error mvs avs ids.length 0 mvs.length (by omega) (by omega)
    (fun j _ hj => hall j hj)
  left
  exact List.getElem?_eq_none (le_refl _)

/-- Witness for the amended C8 at a concrete chunk whose remote list is
shorter than its identifier/local lists. -/
theorem merge_remote_shorter_fails_witness :
    merge_chunk_variant_dicts ["idA", "idB"]
        [[("hgvs_id", PyVal.pystr "idA")]]
        [[("hgvs_id", PyVal.pystr "idA")], [("hgvs_id", PyVal.pystr "idB")]] =
      .error .indexError :=
  merge_remote_shorter_fails ["idA", "idB"] [[("hgvs_id", PyVal.pystr "idA")]]
    [[("hgvs_id", PyVal.pystr "idA")], [("hgvs_id", PyVal.pystr "idB")]] 2 rfl rfl
    (by decide)
    (by
      intro j hj
      match j with
      | 0 => exact ⟨[("hgvs_id", PyVal.pystr "idA")], [("hgvs_id", PyVal.pystr "idA")],
          PyVal.pystr "idA", by decide, by decide, by decide, by decide⟩
      | j + 1 => simp at hj)

/-- Claim C9: a successful merge mutates the local (`annovar`) record in
place and returns that same mapping — the post-state of the local record is
the merged document and carries every remote field; on the
identifier-mismatch path the local record is left unmodified. -/
theorem merge_mutates_local_in_place
    (mv av : Dict) (a b : PyVal)
    (hl1 : dlookup mv "hgvs_id" = some a) (hl2 : dlookup av "hgvs_id" = some b)
    (hnodup : (dkeys mv).Nodup) :
    (a = b →
      (merge_annovar_and_myvariant_dicts mv av).1 =
          .ok (merge_annovar_and_myvariant_dicts mv av).2 ∧
      (merge_annovar_and_myvariant_dicts mv av).2 = dupdate av mv ∧
      (∀ key v, dlookup mv key = some v →
        dlookup (merge_annovar_and_myvariant_dicts mv av).2 key = some v)) ∧
    (a ≠ b → (merge_annovar_and_myvariant_dicts mv av).2 = av) := by
  constructor
  · intro heq
    subst heq
    rw [merge_ok_of_eq mv av a hl1 hl2]
    exact ⟨rfl, rfl, fun key v hv => dlookup_dupdate_of_some _ _ _ _ hnodup hv⟩
  · intro hne
    rw [merge_mismatch_eq mv av a b hl1 hl2 hne]

/-- Witness for C9 at a concrete matching pair: the post-state of the local
record is the merged document. -/
theorem merge_mutates_local_in_place_witness :
    (merge_annovar_and_myvariant_dicts
        [("hgvs_id", PyVal.pystr "id1"), ("cadd", PyVal.pystr "9")]
        [("hgvs_id", PyVal.pystr "id1"), ("func", PyVal.pystr "exonic")]).2 =
      dupdate [("hgvs_id", PyVal.pystr "id1"), ("func", PyVal.pystr "exonic")]
        [("hgvs_id", PyVal.pystr "id1"), ("cadd", PyVal.pystr "9")] :=
  ((merge_mutates_local_in_place
      [("hgvs_id", PyVal.pystr "id1"), ("cadd", PyVal.pystr "9")]
      [("hgvs_id", PyVal.pystr "id1"), ("func", PyVal.pystr "exonic")]
      (PyVal.pystr "id1") (PyVal.pystr "id1")
      (by decide) (by decide) (by decide)).1 rfl).2.1

theorem make_jobs_getElem_inv (fp db coll gb : String) (snl : Option (List String))
    (vl num_lines chunk_size : Nat) (i : Nat) (job : AnnotationJobParams)
    (h : (make_jobs_params_tuples_list fp num_lines chunk_size db coll gb snl vl)[i]? =
      some job) :
    i < num_lines / chunk_size + 1 ∧ job.chunkIndex = i ∧ job.chunkSize = chunk_size := by
  unfold make_jobs_params_tuples_list at h
  rw [List.getElem?_map] at h
  rcases hr : (List.range (num_lines / chunk_size + 1))[i]? with _ | m
  · rw [hr] at h
    simp at h
  · have hi : i < num_lines / chunk_size + 1 := by
      have := (List.getElem?_eq_some.mp hr).1
      simpa using this
    rw [List.getElem?_range hi] at hr
    cases hr
    rw [List.getElem?_range hi] at h
    simp only [Option.map_some'] at h
    cases h
    exact ⟨hi, rfl, rfl⟩

theorem make_jobs_getElem (fp db coll gb : String) (snl : Option (List String))
    (vl num_lines chunk_size : Nat) (i : Nat) (hi : i < num_lines / chunk_size + 1) :
    ∃ job, (make_jobs_params_tuples_list fp num_lines chunk_size db coll gb snl vl)[i]? =
        some job ∧ job.chunkIndex = i ∧ job.chunkSize = chunk_size := by
  unfold make_jobs_params_tuples_list
  rw [List.getElem?_map, List.getElem?_range hi]
  exact ⟨_, rfl, rfl, rfl⟩

/-- Claim C3: for every `num_lines ≥ 0` and `chunk_size > 0` the Job
Partitioner produces exactly `num_lines / chunk_size + 1` jobs (floor
division) with chunk indices `0 .. numJobs-1`, whose line ranges
`[i*chunk_size, (i+1)*chunk_size)` are contiguous, non-overlapping, start
at 0, and jointly cover `[0, chunk_size * numJobs)`, a superset of
`[0, num_lines)`. -/
theorem partitioner_coverage (fp db coll gb : String) (snl : Option (List String))
    (vl num_lines chunk_size : Nat) (hcs : 0 < chunk_size) :
    (make_jobs_params_tuples_list fp num_lines chunk_size db coll gb snl vl).length =
        num_lines / chunk_size + 1 ∧
    (∀ (i : Nat) (job : AnnotationJobParams),
        (make_jobs_params_tuples_list fp num_lines chunk_size db coll gb snl vl)[i]? =
          some job →
        job.chunkIndex = i ∧ jobLineStart job = i * chunk_size ∧
          jobLineEnd job = (i + 1) * chunk_size) ∧
    (∀ (job : AnnotationJobParams),
        (make_jobs_params_tuples_list fp num_lines chunk_size db coll gb snl vl)[0]? =
          some job → jobLineStart job = 0) ∧
    (∀ (i : Nat) (job1 job2 : AnnotationJobParams),
        (make_jobs_params_tuples_list fp num_lines chunk_size db coll gb snl vl)[i]? =
          some job1 →
        (make_jobs_params_tuples_list fp num_lines chunk_size db coll gb snl vl)[i + 1]? =
          some job2 →
        jobLineEnd job1 = jobLineStart job2) ∧
    (∀ (i j x : Nat) (job1 job2 : AnnotationJobParams), i ≠ j →
        (make_jobs_params_tuples_list fp num_lines chunk_size db coll gb snl vl)[i]? =
          some job1 →
        (make_jobs_params_tuples_list fp num_lines chunk_size db coll gb snl vl)[j]? =
          some job2 →
        jobLineStart job1 ≤ x → x < jobLineEnd job1 →
        ¬(jobLineStart job2 ≤ x ∧ x < jobLineEnd job2)) ∧
    (∀ x : Nat, x < chunk_size * (num_lines / chunk_size + 1) →
        ∃ (i : Nat) (job : AnnotationJobParams),
          (make_jobs_params_tuples_list fp num_lines chunk_size db coll gb snl vl)[i]? =
            some job ∧ jobLineStart job ≤ x ∧ x < jobLineEnd job) ∧
    num_lines ≤ chunk_size * (num_lines / chunk_size + 1) := by
  have hdm := Nat.div_add_mod num_lines chunk_size
  have hmlt := Nat.mod_lt num_lines hcs
  refine ⟨?_, ?_, ?_, ?_, ?_, ?_, ?_⟩
  · simp [make_jobs_params_tuples_list]
  · intro i job h
    obtain ⟨hi, hidx, hsz⟩ := make_jobs_getElem_inv fp db coll gb snl vl num_lines
      chunk_size i job h
    exact ⟨hidx, by simp [jobLineStart, hidx, hsz], by simp [jobLineEnd, hidx, hsz]⟩
  · intro job h
    obtain ⟨_, hidx, _⟩ := make_jobs_getElem_inv fp db coll gb snl vl num_lines
      chunk_size 0 job h
    simp [jobLineStart, hidx]
  · intro i job1 job2 h1 h2
    obtain ⟨_, hidx1, hsz1⟩ := make_jobs_getElem_inv fp db coll gb snl vl num_lines
      chunk_size i job1 h1
    obtain ⟨_, hidx2, hsz2⟩ := make_jobs_getElem_inv fp db coll gb snl vl num_lines
      chunk_size (i + 1) job2 h2
    simp [jobLineStart, jobLineEnd, hidx1, hsz1, hidx2, hsz2]
  · intro i j x job1 job2 hne h1 h2 hx1 hx2
    obtain ⟨_, hidx1, hsz1⟩ := make_jobs_getElem_inv fp db coll gb snl vl num_lines
      chunk_size i job1 h1
    obtain ⟨_, hidx2, hsz2⟩ := make_jobs_getElem_inv fp db coll gb snl vl num_lines
      chunk_size j job2 h2
    simp only [jobLineStart, jobLineEnd] at hx1 hx2 ⊢
    rw [hidx1, hsz1] at hx1 hx2
    rw [hidx2, hsz2]
    rintro ⟨hy1, hy2⟩
    rcases Nat.lt_or_ge i j with hij | hij
    · have : (i + 1) * chunk_size ≤ j * chunk_size := Nat.mul_le_mul_right _ (by omega)
      omega
    · have hji : j < i := by omega
      have : (j + 1) * chunk_size ≤ i * chunk_size := Nat.mul_le_mul_right _ (by omega)
      omega
  · intro x hx
    have hxd : x / chunk_size < num_lines / chunk_size + 1 := by
      rw [Nat.div_lt_iff_lt_mul hcs]
      have hcm : (num_lines / chunk_size + 1) * chunk_size =
          chunk_size * (num_lines / chunk_size + 1) := Nat.mul_comm _ _
      omega
    obtain ⟨job, hget, hidx, hsz⟩ := make_jobs_getElem fp db coll gb snl vl num_lines
      chunk_size (x / chunk_size) hxd
    refine ⟨x / chunk_size, job, hget, ?_, ?_⟩
    · simp only [jobLineStart]
      rw [hidx, hsz]
      exact Nat.div_mul_le_self x chunk_size
    · simp only [jobLineEnd]
      rw [hidx, hsz]
      have hxdm := Nat.div_add_mod x chunk_size
      have hxm := Nat.mod_lt x hcs
      calc x = chunk_size * (x / chunk_size) + x % chunk_size := hxdm.symm
        _ < chunk_size * (x / chunk_size) + chunk_size := by omega
        _ = (x / chunk_size + 1) * chunk_size := by ring
  · have hms : chunk_size * (num_lines / chunk_size + 1) =
        chunk_size * (num_lines / chunk_size) + chunk_size := Nat.mul_succ _ _
    omega

/-- Witness for C3 at `num_lines = 5`, `chunk_size = 2`: 3 jobs with ranges
`[0,2), [2,4), [4,6)`. -/
theorem partitioner_coverage_witness :
    (make_jobs_params_tuples_list "in.vcf" 5 2 "db" "coll" "hg19" none 1).length =
      5 / 2 + 1 ∧
    (5 : Nat) ≤ 2 * (5 / 2 + 1) :=
  ⟨(partitioner_coverage "in.vcf" "db" "coll" "hg19" none 1 5 2 (by decide)).1,
   (partitioner_coverage "in.vcf" "db" "coll" "hg19" none 1 5 2 (by decide)).2.2.2.2.2.2⟩

/-- Claim C4 counterexample: at `num_lines = 4`, `chunk_size = 2` the
partitioner produces 3 jobs, not `ceil(4 / 2) = 2`. -/
theorem partitioner_ceil_counterexample :
    (make_jobs_params_tuples_list "in.vcf" 4 2 "db" "coll" "hg19" none 1).length = 3 ∧
    (3 : Nat) ≠ (4 + 2 - 1) / 2 := by decide

/-- Claim C4 amended: the partitioner produces exactly
`floor(num_lines / chunk_size) + 1` AnnotationJob descriptors (one more
than `ceil` whenever `chunk_size` divides `num_lines`, and also for
`num_lines = 0`) with contiguous, non-overlapping chunk indices `0..N-1`. -/
theorem partitioner_num_jobs_floor_plus_one (fp db coll gb : String)
    (snl : Option (List String)) (vl num_lines chunk_size : Nat) (_hcs : 0 < chunk_size) :
    (make_jobs_params_tuples_list fp num_lines chunk_size db coll gb snl vl).length =
        num_lines / chunk_size + 1 ∧
    (∀ (i : Nat) (job : AnnotationJobParams),
        (make_jobs_params_tuples_list fp num_lines chunk_size db coll gb snl vl)[i]? =
          some job → job.chunkIndex = i) := by
  refine ⟨by simp [make_jobs_params_tuples_list], ?_⟩
  intro i job h
  exact (make_jobs_getElem_inv fp db coll gb snl vl num_lines chunk_size i job h).2.1

/-- Witness for the amended C4 at `num_lines = 4`, `chunk_size = 2`. -/
theorem partitioner_num_jobs_floor_plus_one_witness :
    (make_jobs_params_tuples_list "in.vcf" 4 2 "db" "coll" "hg19" none 1).length =
      4 / 2 + 1 :=
  (partitioner_num_jobs_floor_plus_one "in.vcf" "db" "coll" "hg19" none 1 4 2
    (by decide)).1

theorem startsWithChars_append (p l1 l2 : List Char)
    (h : startsWithChars p l1 = true) : startsWithChars p (l1 ++ l2) = true := by
  induction p generalizing l1 with
  | nil => rfl
  | cons a ps ih =>
      cases l1 with
      | nil => simp [startsWithChars] at h
      | cons c cs =>
          simp only [startsWithChars, Bool.and_eq_true] at h
          simp only [List.cons_append, startsWithChars, Bool.and_eq_true]
          exact ⟨h.1, ih cs h.2⟩

theorem hasSubstringChars_nil_pat (l : List Char) :
    hasSubstringChars [] l = true := by
  cases l with
  | nil => rfl
  | cons c cs => simp [hasSubstringChars, startsWithChars]

theorem hasSubstringChars_append_left (p l1 l2 : List Char)
    (h : hasSubstringChars p l1 = true) : hasSubstringChars p (l1 ++ l2) = true := by
  induction l1 with
  | nil =>
      simp only [hasSubstringChars, List.isEmpty_iff] at h
      subst h
      simp [hasSubstringChars_nil_pat]
  | cons c cs ih =>
      simp only [hasSubstringChars, Bool.or_eq_true] at h
      simp only [List.cons_append, hasSubstringChars, Bool.or_eq_true]
      rcases h with h | h
      · left
        have := startsWithChars_append p (c :: cs) l2 h
        simpa using this
      · right
        exact ih h

theorem hasSub_M_of_MT (l : List Char)
    (h : hasSubstringChars "MT".data l = true) :
    hasSubstringChars "M".data l = true := by
  induction l with
  | nil => simp [hasSubstringChars] at h
  | cons c cs ih =>
      simp only [hasSubstringChars, Bool.or_eq_true] at h ⊢
      rcases h with h | h
      · left
        simp only [startsWithChars, Bool.and_eq_true] at h ⊢
        exact ⟨h.1, trivial⟩
      · right
        exact ih h

theorem splitChar_ne_nil (sep : Char) (l : List Char) : splitChar sep l ≠ [] := by
  cases l with
  | nil => simp [splitChar]
  | cons c rest =>
      simp only [splitChar]
      rcases h : splitChar sep rest with _ | ⟨p, ps⟩
      · simp [splitCons]
      · by_cases hc : c = sep <;> simp [splitCons, hc]

theorem splitChar_not_mem (sep : Char) (l : List Char) (h : sep ∉ l) :
    splitChar sep l = [l] := by
  induction l with
  | nil => rfl
  | cons c rest ih =>
      simp only [List.mem_cons, not_or] at h
      simp only [splitChar]
      rw [ih h.2]
      simp only [splitCons]
      rw [if_neg (fun hh => h.1 hh.symm)]

theorem splitChar_append (sep : Char) (l1 l2 : List Char) (h : sep ∉ l1) :
    splitChar sep (l1 ++ sep :: l2) = l1 :: splitChar sep l2 := by
  induction l1 with
  | nil =>
      simp only [List.nil_append, splitChar]
      rcases hs : splitChar sep l2 with _ | ⟨p, ps⟩
      · exact absurd hs (splitChar_ne_nil sep l2)
      · simp [splitCons]
  | cons c cs ih =>
      simp only [List.mem_cons, not_or] at h
      simp only [List.cons_append, splitChar, List.append_eq]
      rw [ih h.2]
      simp only [splitCons]
      rw [if_neg (fun hh => h.1 hh.symm)]

theorem mem_splitChar_not_mem (sep : Char) (l part : List Char)
    (h : part ∈ splitChar sep l) : sep ∉ part := by
  induction l generalizing part with
  | nil =>
      simp only [splitChar, List.mem_singleton] at h
      subst h
      simp
  | cons c rest ih =>
      simp only [splitChar] at h
      rcases hs : splitChar sep rest with _ | ⟨p, ps⟩
      · exact absurd hs (splitChar_ne_nil sep rest)
      · rw [hs] at h
        simp only [splitCons] at h
        by_cases hc : c = sep
        · rw [if_pos hc] at h
          rcases List.mem_cons.mp h with h2 | h2
          · subst h2
            simp
          · exact ih part (by rw [hs]; exact h2)
        · rw [if_neg hc] at h
          rcases List.mem_cons.mp h with h2 | h2
          · subst h2
            have hp : sep ∉ p := ih p (by rw [hs]; exact List.mem_cons_self p ps)
            simp only [List.mem_cons, not_or]
            exact ⟨fun hh => hc hh.symm, hp⟩
          · exact ih part (by rw [hs]; exact List.mem_cons_of_mem p h2)

theorem complete_chromosome_eq_of_split (x : String) (one two : List Char)
    (rest : List (List Char)) (hm : pyIn "M" x = true)
    (hsplit : splitChar ':' x.data = one :: two :: rest) :
    complete_chromosome x = some (String.mk
      ((if ¬hasSubstringChars "MT".data one then "chrMT".data else one) ++ ':' :: two)) := by
  unfold complete_chromosome
  rw [if_pos hm, hsplit]

theorem complete_chromosome_no_marker (x : String) (hm : pyIn "M" x = false) :
    complete_chromosome x = some x := by
  unfold complete_chromosome
  rw [if_neg (by simp [hm])]

theorem complete_chromosome_idem (x y : String)
    (h : complete_chromosome x = some y) : complete_chromosome y = some y := by
  by_cases hm : pyIn "M" x = true
  · rcases hsplit : splitChar ':' x.data with _ | ⟨one, _ | ⟨two, rest⟩⟩
    · exact absurd hsplit (splitChar_ne_nil ':' x.data)
    · unfold complete_chromosome at h
      rw [if_pos hm, hsplit] at h
      exact Option.noConfusion h
    · rw [complete_chromosome_eq_of_split x one two rest hm hsplit] at h
      injection h with h2
      subst h2
      have htwo : ':' ∉ two := mem_splitChar_not_mem ':' x.data two
        (by rw [hsplit]; exact List.mem_cons_of_mem _ (List.mem_cons_self _ _))
      have hone_col : ':' ∉ one := mem_splitChar_not_mem ':' x.data one
        (by rw [hsplit]; exact List.mem_cons_self _ _)
      have key : ∀ one2 : List Char, hasSubstringChars "MT".data one2 = true →
          ':' ∉ one2 →
          complete_chromosome (String.mk (one2 ++ ':' :: two)) =
            some (String.mk (one2 ++ ':' :: two)) := by
        intro one2 hMT2 hcol2
        have hmy : pyIn "M" (String.mk (one2 ++ ':' :: two)) = true := by
          show hasSubstringChars "M".data (one2 ++ ':' :: two) = true
          exact hasSubstringChars_append_left _ _ _ (hasSub_M_of_MT one2 hMT2)
        have hsp : splitChar ':' (String.mk (one2 ++ ':' :: two)).data =
            one2 :: two :: [] := by
          show splitChar ':' (one2 ++ ':' :: two) = one2 :: two :: []
          rw [splitChar_append ':' one2 two hcol2, splitChar_not_mem ':' two htwo]
        rw [complete_chromosome_eq_of_split _ one2 two [] hmy hsp]
        rw [if_neg (by simp [hMT2])]
      by_cases hMT : hasSubstringChars "MT".data one = true
      · rw [if_neg (by simp [hMT])]
        exact key one hMT hone_col
      · rw [if_pos hMT]
        exact key "chrMT".data (by decide) (by decide)
  · have hmf : pyIn "M" x = false := by
      simpa using hm
    rw [complete_chromosome_no_marker x hmf] at h
    injection h with h2
    subst h2
    exact complete_chromosome_no_marker x hmf

/-- Claim C5 counterexample: normalizing `chrM:100:A>G` does not keep
everything after the chromosome intact — the code joins only the first two
colon-separated components, yielding `chrMT:100` and dropping `:A>G`;
moreover an identifier whose chromosome token has no mitochondrial
marker, `chr1:g.100M>A`, is not left unchanged, because the marker is
searched in the whole identifier. -/
theorem complete_chromosome_counterexample :
    complete_chromosome "chrM:100:A>G" = some "chrMT:100" ∧
    complete_chromosome "chrM:100:A>G" ≠ some "chrMT:100:A>G" ∧
    complete_chromosome "chr1:g.100M>A" = some "chrMT:g.100M>A" ∧
    complete_chromosome "chr1:g.100M>A" ≠ some "chr1:g.100M>A" := by decide

/-- Claim C5 amended: normalization is idempotent (any produced output is a
fixed point); a single-colon mitochondrial identifier `chrM:g.100A>G` is
rewritten to `chrMT:g.100A>G` with everything else intact, while the
two-colon `chrM:100:A>G` yields `chrMT:100`, keeping only the first two
colon-separated components; an identifier containing no mitochondrial
marker character anywhere (such as `chr1:100:A>G`) is returned unchanged. -/
theorem complete_chromosome_normalization :
    (∀ x y : String, complete_chromosome x = some y → complete_chromosome y = some y) ∧
    complete_chromosome "chrM:g.100A>G" = some "chrMT:g.100A>G" ∧
    complete_chromosome "chrM:100:A>G" = some "chrMT:100" ∧
    (∀ x : String, pyIn "M" x = false → complete_chromosome x = some x) ∧
    complete_chromosome "chr1:100:A>G" = some "chr1:100:A>G" :=
  ⟨complete_chromosome_idem, by decide, by decide,
   complete_chromosome_no_marker, by decide⟩

/-- Witness for the amended C5: re-normalizing the normalized form of
`chrM:g.100A>G` is the identity, and a marker-free identifier is
untouched. -/
theorem complete_chromosome_normalization_witness :
    complete_chromosome "chrMT:g.100A>G" = some "chrMT:g.100A>G" ∧
    complete_chromosome "chrX:200:T>C" = some "chrX:200:T>C" :=
  ⟨complete_chromosome_normalization.1 "chrM:g.100A>G" "chrMT:g.100A>G" (by decide),
   complete_chromosome_normalization.2.2.2.1 "chrX:200:T>C" (by decide)⟩

theorem dkeys_cons (k : String) (v : PyVal) (tl : Dict) :
    dkeys ((k, v) :: tl) = k :: dkeys tl := rfl

theorem dlookup_cons_self (k : String) (v : PyVal) (tl : Dict) :
    dlookup ((k, v) :: tl) k = some v := by
  simp [dlookup]

theorem dlookup_cons_ne (k3 k : String) (v : PyVal) (tl : Dict) (h : k3 ≠ k) :
    dlookup ((k3, v) :: tl) k = dlookup tl k := by
  simp [dlookup, h]

theorem dpop_cons_self (k : String) (v : PyVal) (tl : Dict) (dflt : PyVal) :
    dpop ((k, v) :: tl) k dflt = (v, tl) := by
  simp [dpop]

theorem dpop_cons_ne (k3 k : String) (v : PyVal) (tl : Dict) (dflt : PyVal)
    (h : k3 ≠ k) :
    dpop ((k3, v) :: tl) k dflt =
      ((dpop tl k dflt).1, (k3, v) :: (dpop tl k dflt).2) := by
  simp [dpop, h]

theorem dset_cons_self (k : String) (v3 v : PyVal) (tl : Dict) :
    dset ((k, v3) :: tl) k v = (k, v) :: tl := by
  simp [dset]

theorem dset_cons_ne (k3 k : String) (v3 v : PyVal) (tl : Dict) (h : k3 ≠ k) :
    dset ((k3, v3) :: tl) k v = (k3, v3) :: dset tl k v := by
  simp [dset, h]

theorem dlookup_dpop_ne (d : Dict) (k k2 : String) (dflt : PyVal) (h : k ≠ k2) :
    dlookup (dpop d k dflt).2 k2 = dlookup d k2 := by
  induction d with
  | nil => rfl
  | cons hd tl ih =>
      obtain ⟨k3, v3⟩ := hd
      by_cases h3 : k3 = k
      · subst h3
        rw [dpop_cons_self, dlookup_cons_ne _ _ _ _ h]
      · rw [dpop_cons_ne _ _ _ _ _ h3]
        by_cases h4 : k3 = k2
        · subst h4
          rw [dlookup_cons_self, dlookup_cons_self]
        · rw [dlookup_cons_ne _ _ _ _ h4, dlookup_cons_ne _ _ _ _ h4, ih]

theorem dlookup_dpop_self (d : Dict) (k : String) (dflt : PyVal)
    (hnd : (dkeys d).Nodup) : dlookup (dpop d k dflt).2 k = none := by
  induction d with
  | nil => rfl
  | cons hd tl ih =>
      obtain ⟨k3, v3⟩ := hd
      rw [dkeys_cons, List.nodup_cons] at hnd
      by_cases h3 : k3 = k
      · subst h3
        rw [dpop_cons_self]
        exact (dlookup_eq_none_iff tl k3).mpr hnd.1
      · rw [dpop_cons_ne _ _ _ _ _ h3, dlookup_cons_ne _ _ _ _ h3, ih hnd.2]

theorem dpop_fst (d : Dict) (k : String) (dflt : PyVal) :
    (dpop d k dflt).1 = (dlookup d k).getD dflt := by
  induction d with
  | nil => rfl
  | cons hd tl ih =>
      obtain ⟨k3, v3⟩ := hd
      by_cases h3 : k3 = k
      · subst h3
        rw [dpop_cons_self, dlookup_cons_self]
        rfl
      · rw [dpop_cons_ne _ _ _ _ _ h3, dlookup_cons_ne _ _ _ _ h3]
        exact ih

theorem mem_dkeys_dset (d : Dict) (k k2 : String) (v : PyVal) :
    k2 ∈ dkeys (dset d k v) ↔ k2 = k ∨ k2 ∈ dkeys d := by
  induction d with
  | nil => simp [dset, dkeys]
  | cons hd tl ih =>
      obtain ⟨k3, v3⟩ := hd
      by_cases h3 : k3 = k
      · subst h3
        rw [dset_cons_self, dkeys_cons, dkeys_cons]
        simp only [List.mem_cons]
        tauto
      · rw [dset_cons_ne _ _ _ _ _ h3, dkeys_cons, dkeys_cons]
        simp only [List.mem_cons, ih]
        tauto

theorem dkeys_dset_nodup (d : Dict) (k : String) (v : PyVal)
    (hnd : (dkeys d).Nodup) : (dkeys (dset d k v)).Nodup := by
  induction d with
  | nil => simp [dset, dkeys]
  | cons hd tl ih =>
      obtain ⟨k3, v3⟩ := hd
      rw [dkeys_cons, List.nodup_cons] at hnd
      by_cases h3 : k3 = k
      · subst h3
        rw [dset_cons_self, dkeys_cons, List.nodup_cons]
        exact hnd
      · rw [dset_cons_ne _ _ _ _ _ h3, dkeys_cons, List.nodup_cons]
        constructor
        · intro hmem
          rcases (mem_dkeys_dset tl k k3 v).mp hmem with h4 | h4
          · exact h3 h4
          · exact hnd.1 h4
        · exact ih hnd.2

theorem mem_dkeys_dpop (d : Dict) (k k2 : String) (dflt : PyVal)
    (h : k2 ∈ dkeys (dpop d k dflt).2) : k2 ∈ dkeys d := by
  induction d with
  | nil => exact h
  | cons hd tl ih =>
      obtain ⟨k3, v3⟩ := hd
      by_cases h3 : k3 = k
      · subst h3
        rw [dpop_cons_self] at h
        rw [dkeys_cons]
        exact List.mem_cons_of_mem _ h
      · rw [dpop_cons_ne _ _ _ _ _ h3, dkeys_cons, List.mem_cons] at h
        rw [dkeys_cons, List.mem_cons]
        rcases h with h | h
        · exact Or.inl h
        · exact Or.inr (ih h)

theorem dkeys_dpop_nodup (d : Dict) (k : String) (dflt : PyVal)
    (hnd : (dkeys d).Nodup) : (dkeys (dpop d k dflt).2).Nodup := by
  induction d with
  | nil => simp [dpop, dkeys]
  | cons hd tl ih =>
      obtain ⟨k3, v3⟩ := hd
      rw [dkeys_cons, List.nodup_cons] at hnd
      by_cases h3 : k3 = k
      · subst h3
        rw [dpop_cons_self]
        exact hnd.2
      · rw [dpop_cons_ne _ _ _ _ _ h3, dkeys_cons, List.nodup_cons]
        exact ⟨fun hmem => hnd.1 (mem_dkeys_dpop tl k k3 dflt hmem), ih hnd.2⟩

theorem removeIdKeyOne_spec (dic : Dict) (hnd : (dkeys dic).Nodup) :
    dlookup (removeIdKeyOne dic) "_id" = none ∧
    dlookup (removeIdKeyOne dic) "query" = none ∧
    dlookup (removeIdKeyOne dic) "hgvs_id" =
      some ((dlookup dic "query").getD PyVal.pynone) ∧
    (dkeys (removeIdKeyOne dic)).count "hgvs_id" = 1 := by
  have hnd1 : (dkeys (dpop dic "_id" PyVal.pynone).2).Nodup :=
    dkeys_dpop_nodup dic "_id" PyVal.pynone hnd
  have hnd2 : (dkeys (dset (dpop dic "_id" PyVal.pynone).2 "hgvs_id"
      (dpop dic "_id" PyVal.pynone).1)).Nodup :=
    dkeys_dset_nodup _ _ _ hnd1
  have hnd3 : (dkeys (dpop (dset (dpop dic "_id" PyVal.pynone).2 "hgvs_id"
      (dpop dic "_id" PyVal.pynone).1) "query" PyVal.pynone).2).Nodup :=
    dkeys_dpop_nodup _ _ _ hnd2
  have hnd4 : (dkeys (removeIdKeyOne dic)).Nodup := by
    unfold removeIdKeyOne
    exact dkeys_dset_nodup _ _ _ hnd3
  refine ⟨?_, ?_, ?_, ?_⟩
  · show dlookup (dset _ "hgvs_id" _) "_id" = none
    rw [dlookup_dset_ne _ _ _ _ (by decide), dlookup_dpop_ne _ _ _ _ (by decide),
      dlookup_dset_ne _ _ _ _ (by decide)]
    exact dlookup_dpop_self dic "_id" PyVal.pynone hnd
  · show dlookup (dset _ "hgvs_id" _) "query" = none
    rw [dlookup_dset_ne _ _ _ _ (by decide)]
    exact dlookup_dpop_self _ "query" PyVal.pynone hnd2
  · show dlookup (dset _ "hgvs_id" _) "hgvs_id" =
      some ((dlookup dic "query").getD PyVal.pynone)
    rw [dlookup_dset_self, dpop_fst, dlookup_dset_ne _ _ _ _ (by decide),
      dlookup_dpop_ne _ _ _ _ (by decide)]
  · have hmem : "hgvs_id" ∈ dkeys (removeIdKeyOne dic) := by
      apply mem_dkeys_of_dlookup _ _ ((dlookup dic "query").getD PyVal.pynone)
      show dlookup (dset _ "hgvs_id" _) "hgvs_id" = _
      rw [dlookup_dset_self, dpop_fst, dlookup_dset_ne _ _ _ _ (by decide),
        dlookup_dpop_ne _ _ _ _ (by decide)]
    exact List.count_eq_one_of_mem hnd4 hmem

/-- Claim C6: after `_remove_id_key` post-processing, no record keeps a
service-internal identifier key (`_id` or `query`); every record carries
exactly one `hgvs_id` field, whose value is the record's `query` field —
the identifier the record was queried with when the service echoes the
query; and when the service returned both internal identifier fields the
overwrites are applied in a fixed order so the second write (`query`)
wins. -/
theorem remove_id_key_field_hygiene (variant_data : List Dict)
    (hnd : ∀ d ∈ variant_data, (dkeys d).Nodup) :
    (remove_id_key variant_data).length = variant_data.length ∧
    ∀ (j : Nat) (dic out : Dict), variant_data[j]? = some dic →
      (remove_id_key variant_data)[j]? = some out →
      dlookup out "_id" = none ∧
      dlookup out "query" = none ∧
      (dkeys out).count "hgvs_id" = 1 ∧
      (∀ q : PyVal, dlookup dic "query" = some q → dlookup out "hgvs_id" = some q) ∧
      (∀ a b : PyVal, dlookup dic "_id" = some a → dlookup dic "query" = some b →
        dlookup out "hgvs_id" = some b) := by
  constructor
  · simp [remove_id_key]
  · intro j dic out hdic hout
    have hmap : (remove_id_key variant_data)[j]? = (variant_data[j]?).map removeIdKeyOne := by
      simp [remove_id_key, List.getElem?_map]
    rw [hmap, hdic] at hout
    simp only [Option.map_some'] at hout
    have hout2 : out = removeIdKeyOne dic := by
      injection hout with h2
      exact h2.symm
    obtain ⟨hp1, hp2, hp3, hp4⟩ := removeIdKeyOne_spec dic
      (hnd dic (List.getElem?_mem hdic))
    subst hout2
    refine ⟨hp1, hp2, hp4, ?_, ?_⟩
    · intro q hq
      rw [hp3, hq]
      rfl
    · intro a b _ hb
      rw [hp3, hb]
      rfl

/-- Witness for C6 at a concrete record carrying both internal identifier
fields: the processed record keeps neither `_id` nor `query` and holds the
`query` value under `hgvs_id`. -/
theorem remove_id_key_field_hygiene_witness :
    dlookup [("cadd", PyVal.pystr "7"), ("hgvs_id", PyVal.pystr "asked")] "_id" =
      none ∧
    dlookup [("cadd", PyVal.pystr "7"), ("hgvs_id", PyVal.pystr "asked")] "query" =
      none ∧
    dlookup [("cadd", PyVal.pystr "7"), ("hgvs_id", PyVal.pystr "asked")] "hgvs_id" =
      some (PyVal.pystr "asked") := by
  have h := (remove_id_key_field_hygiene
    [[("_id", PyVal.pystr "canon"), ("query", PyVal.pystr "asked"),
      ("cadd", PyVal.pystr "7")]] (by decide)).2 0
    [("_id", PyVal.pystr "canon"), ("query", PyVal.pystr "asked"),
      ("cadd", PyVal.pystr "7")]
    [("cadd", PyVal.pystr "7"), ("hgvs_id", PyVal.pystr "asked")] rfl (by decide)
  exact ⟨h.1, h.2.1, h.2.2.2.2 (PyVal.pystr "canon") (PyVal.pystr "asked")
    (by decide) (by decide)⟩

theorem getMyvariant_succ_ok (attempts : Nat → Except String (List Dict))
    (depth fuel : Nat) (data : List Dict) (ha : attempts depth = .ok data) :
    get_myvariantinfo_annotations_dict attempts depth (fuel + 1) =
      some (remove_id_key data) := by
  simp [get_myvariantinfo_annotations_dict, ha]

theorem getMyvariant_succ_error (attempts : Nat → Except String (List Dict))
    (depth fuel : Nat) (e : String) (ha : attempts depth = .error e) :
    get_myvariantinfo_annotations_dict attempts depth (fuel + 1) =
      (get_myvariantinfo_annotations_dict attempts (depth + 1) fuel).map
        remove_id_key := by
  simp [get_myvariantinfo_annotations_dict, ha]

theorem getMyvariant_some_imp (attempts : Nat → Except String (List Dict)) :
    ∀ (fuel depth : Nat) (res : List Dict),
    get_myvariantinfo_annotations_dict attempts depth fuel = some res →
    ∃ k data, k < fuel ∧ attempts (depth + k) = .ok data ∧
      res = Nat.iterate remove_id_key (k + 1) data := by
  intro fuel
  induction fuel with
  | zero =>
      intro depth res h
      exact absurd h (by simp [get_myvariantinfo_annotations_dict])
  | succ fuel ih =>
      intro depth res h
      rcases ha : attempts depth with e | data2
      · rw [getMyvariant_succ_error attempts depth fuel e ha] at h
        rcases hrec : get_myvariantinfo_annotations_dict attempts (depth + 1) fuel
          with _ | res2
        · rw [hrec] at h
          simp at h
        · rw [hrec] at h
          simp only [Option.map_some'] at h
          injection h with h2
          obtain ⟨k, data, hk, hat, hres⟩ := ih (depth + 1) res2 hrec
          refine ⟨k + 1, data, by omega, ?_, ?_⟩
          · rw [show depth + (k + 1) = depth + 1 + k from by omega]
            exact hat
          · rw [← h2, hres]
            simp [Function.iterate_succ_apply']
      · rw [getMyvariant_succ_ok attempts depth fuel data2 ha] at h
        injection h with h2
        exact ⟨0, data2, by omega, by simpa using ha, by rw [← h2]; rfl⟩

theorem getMyvariant_first_success (attempts : Nat → Except String (List Dict)) :
    ∀ (k depth fuel : Nat) (data : List Dict),
    (∀ j, j < k → ∃ e, attempts (depth + j) = .error e) →
    attempts (depth + k) = .ok data → k < fuel →
    get_myvariantinfo_annotations_dict attempts depth fuel =
      some (Nat.iterate remove_id_key (k + 1) data) := by
  intro k
  induction k with
  | zero =>
      intro depth fuel data _ hok hf
      obtain ⟨fuel2, rfl⟩ : ∃ f2, fuel = f2 + 1 := ⟨fuel - 1, by omega⟩
      rw [getMyvariant_succ_ok attempts depth fuel2 data (by simpa using hok)]
      rfl
  | succ k ih =>
      intro depth fuel data hall hok hf
      obtain ⟨fuel2, rfl⟩ : ∃ f2, fuel = f2 + 1 := ⟨fuel - 1, by omega⟩
      obtain ⟨e, he⟩ := hall 0 (by omega)
      rw [getMyvariant_succ_error attempts depth fuel2 e (by simpa using he)]
      rw [ih (depth + 1) fuel2 data
        (fun j hj => by
          obtain ⟨e2, he2⟩ := hall (j + 1) (by omega)
          exact ⟨e2, by rw [show depth + 1 + j = depth + (j + 1) from by omega]; exact he2⟩)
        (by rw [show depth + 1 + k = depth + (k + 1) from by omega]; exact hok)
        (by omega)]
      simp only [Option.map_some']
      simp [Function.iterate_succ_apply']

theorem getMyvariant_all_fail (attempts : Nat → Except String (List Dict)) :
    ∀ (fuel depth : Nat), (∀ j, j < fuel → ∃ e, attempts (depth + j) = .error e) →
    get_myvariantinfo_annotations_dict attempts depth fuel = none := by
  intro fuel
  induction fuel with
  | zero =>
      intro depth _
      rfl
  | succ fuel ih =>
      intro depth hall
      obtain ⟨e, he⟩ := hall 0 (by omega)
      rw [getMyvariant_succ_error attempts depth fuel e (by simpa using he)]
      rw [ih (depth + 1) (fun j hj => by
        obtain ⟨e2, he2⟩ := hall (j + 1) (by omega)
        exact ⟨e2, by rw [show depth + 1 + j = depth + (j + 1) from by omega]; exact he2⟩)]
      rfl

/-- Claim C7: the remote client recovers from every failed attempt by
retrying the whole batched call, with no bound on the number of attempts:
(a) a result is returned only when some attempt within the explored depth
succeeds, and it is that attempt's record list (post-processed once per
recursion level); (b) after any number k of consecutive failures, a
success on attempt k yields that attempt's record list — no attempt
counter ever stops the retries; (c) while every attempt fails the client
produces no result at all — in particular a transient service error is
never surfaced to the caller as a terminal failure, the loop just keeps
retrying. -/
theorem myvariant_retry_unbounded (attempts : Nat → Except String (List Dict)) :
    (∀ (fuel : Nat) (res : List Dict),
      get_myvariantinfo_annotations_dict attempts 0 fuel = some res →
      ∃ k data, k < fuel ∧ attempts k = .ok data ∧
        res = Nat.iterate remove_id_key (k + 1) data) ∧
    (∀ (k : Nat) (data : List Dict),
      (∀ j, j < k → ∃ e, attempts j = .error e) → attempts k = .ok data →
      ∀ fuel, k < fuel →
      get_myvariantinfo_annotations_dict attempts 0 fuel =
        some (Nat.iterate remove_id_key (k + 1) data)) ∧
    (∀ fuel : Nat, (∀ j, j < fuel → ∃ e, attempts j = .error e) →
      get_myvariantinfo_annotations_dict attempts 0 fuel = none) := by
  refine ⟨?_, ?_, ?_⟩
  · intro fuel res h
    obtain ⟨k, data, hk, hat, hres⟩ := getMyvariant_some_imp attempts fuel 0 res h
    exact ⟨k, data, hk, by simpa using hat, hres⟩
  · intro k data hall hok fuel hf
    exact getMyvariant_first_success attempts k 0 fuel data
      (fun j hj => by simpa using hall j hj) (by simpa using hok) hf
  · intro fuel hall
    exact getMyvariant_all_fail attempts fuel 0 (fun j hj => by simpa using hall j hj)

/-- Witness for C7: an oracle failing on attempts 0 and 1 and succeeding on
attempt 2 makes the client return attempt 2's record list (post-processed
three times, once per recursion level). -/
theorem myvariant_retry_unbounded_witness :
    get_myvariantinfo_annotations_dict
      (fun j => if j < 2 then .error "503"
        else .ok [[("_id", PyVal.pystr "a"), ("query", PyVal.pystr "q")]]) 0 3 =
      some (Nat.iterate remove_id_key 3
        [[("_id", PyVal.pystr "a"), ("query", PyVal.pystr "q")]]) :=
  (myvariant_retry_unbounded _).2.1 2
    [[("_id", PyVal.pystr "a"), ("query", PyVal.pystr "q")]]
    (fun j hj => ⟨"503", by rw [if_pos hj]⟩)
    (by rw [if_neg (by omega)]) 3 (by omega)

theorem splitChar_mem_sep (sep : Char) (l : List Char) (h : sep ∈ l) :
    ∃ a b rest, splitChar sep l = a :: b :: rest := by
  induction l with
  | nil => exact absurd h (List.not_mem_nil sep)
  | cons c cs ih =>
      by_cases hc : c = sep
      · subst hc
        simp only [splitChar]
        rcases hs : splitChar c cs with _ | ⟨p, ps⟩
        · exact absurd hs (splitChar_ne_nil c cs)
        · exact ⟨[], p, ps, by simp [splitCons]⟩
      · have hcs : sep ∈ cs := by
          rcases List.mem_cons.mp h with h2 | h2
          · exact absurd h2.symm hc
          · exact h2
        obtain ⟨a, b, rest, hab⟩ := ih hcs
        refine ⟨c :: a, b, rest, ?_⟩
        simp only [splitChar, hab, splitCons]
        rw [if_neg hc]

theorem format_hgvs_has_colon (chrom : String) (pos : Nat) (ref alt : String) :
    ':' ∈ (format_hgvs chrom pos ref alt).data := by
  simp only [format_hgvs, String.data_append, List.mem_append]
  left
  left
  left
  right
  decide

theorem complete_chromosome_total (s : String) (hc : ':' ∈ s.data) :
    ∃ y, complete_chromosome s = some y := by
  by_cases hm : pyIn "M" s = true
  · obtain ⟨one, two, rest, hsp⟩ := splitChar_mem_sep ':' s.data hc
    exact ⟨_, complete_chromosome_eq_of_split s one two rest hm hsp⟩
  · exact ⟨s, complete_chromosome_no_marker s (by simpa using hm)⟩

theorem hgvsIdsLoop_spec (rs : List VcfRecord) (halt : ∀ r ∈ rs, r.alt ≠ []) :
    ∃ ids, hgvsIdsLoop rs = some ids ∧ ids.length = rs.length ∧
      ∀ (j : Nat) (r : VcfRecord), rs[j]? = some r →
        ∃ alt0 nid, r.alt[0]? = some alt0 ∧
          complete_chromosome (format_hgvs r.chrom r.pos r.ref alt0) = some nid ∧
          ids[j]? = some nid := by
  induction rs with
  | nil =>
      refine ⟨[], rfl, rfl, ?_⟩
      intro j r hj
      simp at hj
  | cons r rest ih =>
      have hr0 : ∃ alt0, r.alt[0]? = some alt0 := by
        rcases ha : r.alt with _ | ⟨a, t⟩
        · exact absurd ha (halt r (List.mem_cons_self r rest))
        · exact ⟨a, by simp⟩
      obtain ⟨alt0, halt0⟩ := hr0
      obtain ⟨nid, hnid⟩ := complete_chromosome_total
        (format_hgvs r.chrom r.pos r.ref alt0)
        (format_hgvs_has_colon r.chrom r.pos r.ref alt0)
      obtain ⟨ids, hids, hlen, hidx⟩ := ih
        (fun r2 hr2 => halt r2 (List.mem_cons_of_mem r hr2))
      refine ⟨nid :: ids, ?_, by simp [hlen], ?_⟩
      · simp only [hgvsIdsLoop, halt0, hnid, hids, Option.map_some']
      · intro j r2 hj
        match j with
        | 0 =>
            rw [List.getElem?_cons_zero] at hj
            injection hj with hj2
            subst hj2
            exact ⟨alt0, nid, halt0, hnid, by simp⟩
        | j + 1 =>
            rw [List.getElem?_cons_succ] at hj
            obtain ⟨a0, n0, h1, h2, h3⟩ := hidx j r2 hj
            exact ⟨a0, n0, h1, h2, by rw [List.getElem?_cons_succ]; exact h3⟩

theorem getElem?_zero_take_one {α : Type} (l : List α) : (l.take 1)[0]? = l[0]? := by
  cases l <;> simp

theorem hgvsIdsLoop_first_alt_only (rs : List VcfRecord) :
    hgvsIdsLoop (rs.map (fun r => { r with alt := r.alt.take 1 })) = hgvsIdsLoop rs := by
  induction rs with
  | nil => rfl
  | cons r rest ih =>
      simp only [List.map_cons, hgvsIdsLoop, getElem?_zero_take_one, ih]

/-- Claim C10: in basic-annotation mode, identifier derivation from the VCF
produces exactly one identifier per record in the chunk's line range (the
`islice` window `[chunk_index*chunk_size, (chunk_index+1)*chunk_size)`),
each built from the record's first alternate allele only — truncating every
record's ALT list to its first element changes nothing, so additional
alternate alleles of a multi-allelic record contribute no identifier. -/
theorem hgvs_ids_one_per_record
    (records : List VcfRecord) (chunk_index chunk_size : Nat)
    (halt : ∀ r ∈ (records.drop (chunk_index * chunk_size)).take
        ((chunk_index + 1) * chunk_size - chunk_index * chunk_size), r.alt ≠ []) :
    ∃ ids, get_hgvs_ids_from_vcf records chunk_index chunk_size = some ids ∧
      ids.length = ((records.drop (chunk_index * chunk_size)).take
        ((chunk_index + 1) * chunk_size - chunk_index * chunk_size)).length ∧
      (∀ (j : Nat) (r : VcfRecord), ((records.drop (chunk_index * chunk_size)).take
          ((chunk_index + 1) * chunk_size - chunk_index * chunk_size))[j]? = some r →
        ∃ alt0 nid, r.alt[0]? = some alt0 ∧
          complete_chromosome (format_hgvs r.chrom r.pos r.ref alt0) = some nid ∧
          ids[j]? = some nid) ∧
      get_hgvs_ids_from_vcf (records.map (fun r => { r with alt := r.alt.take 1 }))
          chunk_index chunk_size = some ids := by
  obtain ⟨ids, hids, hlen, hidx⟩ := hgvsIdsLoop_spec
    ((records.drop (chunk_index * chunk_size)).take
      ((chunk_index + 1) * chunk_size - chunk_index * chunk_size)) halt
  refine ⟨ids, hids, hlen, hidx, ?_⟩
  show hgvsIdsLoop (((records.map fun r => { r with alt := r.alt.take 1 }).drop
    (chunk_index * chunk_size)).take
    ((chunk_index + 1) * chunk_size - chunk_index * chunk_size)) = some ids
  rw [← List.map_drop, ← List.map_take, hgvsIdsLoop_first_alt_only]
  exact hids

/-- Witness for C10 at a two-record chunk whose second record is
multi-allelic. -/
theorem hgvs_ids_one_per_record_witness :
    ∃ ids, get_hgvs_ids_from_vcf
        [⟨"chr1", 100, "A", ["G"]⟩, ⟨"chr2", 5, "T", ["C", "G"]⟩] 0 2 = some ids ∧
      ids.length = 2 := by
  obtain ⟨ids, h1, h2, _⟩ := hgvs_ids_one_per_record
    [⟨"chr1", 100, "A", ["G"]⟩, ⟨"chr2", 5, "T", ["C", "G"]⟩] 0 2 (by decide)
  refine ⟨ids, h1, ?_⟩
  rw [h2]
  decide

end VAPr
